import Mathlib

/-!
# Verification of the STOKE obligation-checker interface

This file is a shallow embedding, in Lean 4, of the code in
`src/validator/obligation_checker.h` (which also carries the header of
`src/symstate/memory/arm.h`): the `ArmMemory` symbolic memory model, the
`ObligationChecker` configuration and its synchronous adapter `check_wait`,
together with models — written from the specification — of the parts whose
bodies are not in this repository slice (the pure-virtual `check`, the
concrete alias-strategy checkers).  The theorems at the end settle the
specification's claims about this code.
-/

namespace StokeSpec

/-! ## Symbolic expressions

The C++ code manipulates `SymBitVector`, `SymBool` and `SymArray` terms from
`src/symstate`.  For the claims at hand only their identity matters: fresh
temporaries are produced by `tmp_var` (a global counter), booleans are either
the constant `false` or an equality node, arrays are named heap variables.
`tmpVar` carries the width and the counter value at creation, which models
both freshness and the `.ptr` pointer identity the C++ uses as a map key
(each `tmp_var` call allocates a distinct node). -/

/-- A symbolic bitvector: a fresh temporary (`SymBitVector::tmp_var(w)`,
identified by the global counter value at its creation) or an opaque
externally-supplied term. -/
inductive SymBitVector where
  | tmpVar (width : Nat) (id : Nat)
  | var (width : Nat) (id : Nat)
deriving DecidableEq, Repr

/-- A symbolic array variable (`SymArray::tmp_var(64, 8)`), identified by its
index width, element width and the counter value at its creation. -/
inductive SymArray where
  | tmpVar (idxWidth : Nat) (elemWidth : Nat) (id : Nat)
deriving DecidableEq, Repr

/-- A symbolic boolean: the nodes the embedded code builds are
`SymBool::_false()`, bitvector equality (`access_var == address`) and array
equality (`get_variable() == other.get_variable()`). -/
inductive SymBool where
  | sfalse
  | eq (a b : SymBitVector)
  | eqArray (a b : SymArray)
deriving DecidableEq, Repr

/-- `ArmMemory::MemAccess`.  Fields are exactly those of the C++ struct:
symbolic address, symbolic value, byte size, write flag, and the
cell-assignment fields (`cell`, `cell_offset`, `is_other`, `index`) filled in
by `generate_constraints` (whose body is not part of this slice); at append
time the C++ leaves the latter four uninitialized, modelled here by zero
defaults.  Note the struct has no field for the `line_no` argument of
`read`/`write`. -/
structure MemAccess where
  address : SymBitVector
  value : SymBitVector
  size : Nat
  write : Bool
  cell : Nat
  cell_offset : Int
  is_other : Bool
  index : Nat
deriving DecidableEq, Repr

/-- `std::map` insert-or-assign (`access_list_[k] = v`): replace the binding
of `k` if present, otherwise add it. -/
def mapInsert (l : List (SymBitVector × Nat)) (k : SymBitVector) (v : Nat) :
    List (SymBitVector × Nat) :=
  match l with
  | [] => [(k, v)]
  | (k2, v2) :: rest =>
    if k2 = k then (k, v) :: rest else (k2, v2) :: mapInsert rest k v

/-- The state of one `ArmMemory` object.  `next_tmp` models the global
`tmp_var` counter for bitvectors, threaded through the object's operations
(each call to `SymBitVector::tmp_var` yields a node distinct from every
earlier one). -/
structure ArmMemory where
  constraints_ : List SymBool
  heap_ : SymArray
  start_variable_ : SymArray
  final_heap_ : SymArray
  finalize_ : Bool
  access_list_ : List (SymBitVector × Nat)
  accesses_ : List MemAccess
  next_tmp : Nat
deriving DecidableEq, Repr

/-- The `ArmMemory(SMTSolver&)` constructor: `heap_` is a fresh array,
`start_variable_ = heap_`, `final_heap_` is a second fresh array,
`finalize_ = false`; the logs start empty.  `c` is the array temporary
counter at construction time. -/
def armMemoryInit (c : Nat) : ArmMemory :=
  { constraints_ := []
    heap_ := SymArray.tmpVar 64 8 c
    start_variable_ := SymArray.tmpVar 64 8 c
    final_heap_ := SymArray.tmpVar 64 8 (c + 1)
    finalize_ := false
    access_list_ := []
    accesses_ := []
    next_tmp := 0 }

/-- `ArmMemory::get_end_variable`. -/
def ArmMemory.get_end_variable (m : ArmMemory) : SymArray :=
  m.final_heap_

/-- `ArmMemory::get_start_variable`. -/
def ArmMemory.get_start_variable (m : ArmMemory) : SymArray :=
  m.start_variable_

/-- `ArmMemory::get_variable`: the end variable once finalized, the start
variable before. -/
def ArmMemory.get_variable (m : ArmMemory) : SymArray :=
  if m.finalize_ then m.get_end_variable else m.get_start_variable

/-- `ArmMemory::finalize_heap`: sets the `finalize_` flag. -/
def ArmMemory.finalize_heap (m : ArmMemory) : ArmMemory :=
  { m with finalize_ := true }

/-- `ArmMemory::write(address, value, size, line_no)`: allocate a fresh
64-bit placeholder, push the constraint equating it to `address`, record its
size in `access_list_` (keyed by the placeholder's identity, the C++
`access_var.ptr`), append a write-tagged `MemAccess`, return
`SymBool::_false()`.  `line_no` is accepted but never used. -/
def ArmMemory.write (m : ArmMemory) (address value : SymBitVector)
    (size : Nat) ( line_no : Nat) : SymBool × ArmMemory :=
  let access_var := SymBitVector.tmpVar 64 m.next_tmp
  let acc : MemAccess :=
    { address := address, value := value, size := size, write := true
      cell := 0, cell_offset := 0, is_other := false, index := 0 }
  (SymBool.sfalse,
    { m with
      next_tmp := m.next_tmp + 1
      constraints_ := m.constraints_ ++ [SymBool.eq access_var address]
      access_list_ := mapInsert m.access_list_ access_var size
      accesses_ := m.accesses_ ++ [acc] })

/-- `ArmMemory::read(address, size, line_no)`: allocate a fresh 64-bit
address placeholder (constrained equal to `address`, recorded in
`access_list_`), allocate a second fresh `size`-wide placeholder as the
value, append a read-tagged `MemAccess`, return the value together with
`SymBool::_false()`.  `line_no` is accepted but never used. -/
def ArmMemory.read (m : ArmMemory) (address : SymBitVector)
    (size : Nat) ( line_no : Nat) : (SymBitVector × SymBool) × ArmMemory :=
  let access_var := SymBitVector.tmpVar 64 m.next_tmp
  let value := SymBitVector.tmpVar size (m.next_tmp + 1)
  let acc : MemAccess :=
    { address := address, value := value, size := size, write := false
      cell := 0, cell_offset := 0, is_other := false, index := 0 }
  ((value, SymBool.sfalse),
    { m with
      next_tmp := m.next_tmp + 2
      constraints_ := m.constraints_ ++ [SymBool.eq access_var address]
      access_list_ := mapInsert m.access_list_ access_var size
      accesses_ := m.accesses_ ++ [acc] })

/-- `ArmMemory::equality_constraint(other)`:
`get_variable() == other.get_variable()`. -/
def ArmMemory.equality_constraint (m other : ArmMemory) : SymBool :=
  SymBool.eqArray m.get_variable other.get_variable

/-- `ArmMemory::get_constraints`. -/
def ArmMemory.get_constraints (m : ArmMemory) : List SymBool :=
  m.constraints_

/-- `ArmMemory::get_access_list`. -/
def ArmMemory.get_access_list (m : ArmMemory) : List (SymBitVector × Nat) :=
  m.access_list_

/-! ## ObligationChecker configuration -/

/-- `ObligationChecker::AliasStrategy`. -/
inductive AliasStrategy where
  | BASIC
  | FLAT
  | ARM
  | ARMS_RACE
deriving DecidableEq, Repr

/-- The configuration fields of `ObligationChecker` (its protected data
members). -/
structure ObligationChecker where
  alias_strategy_ : AliasStrategy
  basic_block_ghosts_ : Bool
  nacl_ : Bool
  fixpoint_up_ : Bool
deriving DecidableEq, Repr

/-- `set_alias_strategy`. -/
def ObligationChecker.set_alias_strategy (oc : ObligationChecker)
    (as : AliasStrategy) : ObligationChecker :=
  { oc with alias_strategy_ := as }

/-- `set_nacl`. -/
def ObligationChecker.set_nacl (oc : ObligationChecker) (b : Bool) :
    ObligationChecker :=
  { oc with nacl_ := b }

/-- `set_basic_block_ghosts`. -/
def ObligationChecker.set_basic_block_ghosts (oc : ObligationChecker)
    (b : Bool) : ObligationChecker :=
  { oc with basic_block_ghosts_ := b }

/-- `set_fixpoint_up`. -/
def ObligationChecker.set_fixpoint_up (oc : ObligationChecker) (b : Bool) :
    ObligationChecker :=
  { oc with fixpoint_up_ := b }

/-- The default constructor `ObligationChecker()`: starting from arbitrary
(uninitialized) field contents `init`, it runs the four setter calls of the
constructor body. -/
def obligationCheckerInit (init : ObligationChecker) : ObligationChecker :=
  (((init.set_alias_strategy AliasStrategy.FLAT).set_nacl
      false).set_basic_block_ghosts true).set_fixpoint_up false

/-- The copy constructor `ObligationChecker(const ObligationChecker&)`: it
copies the four configuration fields. -/
def obligationCheckerCopy (oc : ObligationChecker) : ObligationChecker :=
  { alias_strategy_ := oc.alias_strategy_
    basic_block_ghosts_ := oc.basic_block_ghosts_
    nacl_ := oc.nacl_
    fixpoint_up_ := oc.fixpoint_up_ }

/-! ## The synchronous adapter `check_wait`

`check_wait` declares `std::atomic<bool> await_complete(false)` and a slot
`await_result`, passes `check` a callback that stores the result and then
release-stores the flag, and spins with `std::this_thread::yield()` on an
acquire-load of the flag before returning the slot.  The callback may run
inline on the calling thread before the loop starts, or on another thread at
any later time.  The embedding models this as a two-location shared state and
an explicit interleaving: the callback is a two-step writer (store the
result, then set the flag), and a schedule decides when those steps happen
relative to the poll instants of the spin loop. -/

/-- The two shared locations of `check_wait`: the `await_result` slot and the
`await_complete` flag. -/
structure SpinState (R : Type) where
  await_result : Option R
  await_complete : Bool
deriving DecidableEq, Repr

/-- The callback's program counter: it has not yet run, it has stored the
result but not yet the flag, or it is done. -/
inductive WriterPC where
  | entry
  | stored
  | done
deriving DecidableEq, Repr

/-- Initial state of a `check_wait` call: empty slot, flag `false`, callback
not yet started. -/
def spinInit (R : Type) : WriterPC × SpinState R :=
  (WriterPC.entry, { await_result := none, await_complete := false })

/-- One step of the callback `[&](Result& result, void*)`: first
`await_result = result`, then `await_complete.store(true, release)`. -/
def callbackStep (r : R) : WriterPC × SpinState R → WriterPC × SpinState R
  | (WriterPC.entry, s) =>
    (WriterPC.stored, { s with await_result := some r })
  | (WriterPC.stored, s) =>
    (WriterPC.done, { s with await_complete := true })
  | (WriterPC.done, s) => (WriterPC.done, s)

/-- The shared state at poll instant `k`, under an arbitrary completion
schedule: `sched i = true` when the callback makes progress between instants
`i` and `i + 1`, `false` when it is stalled (still queued, preempted, or
already done).  Quantifying over `sched` captures every relative timing of
callback and polling loop, including completion before polling begins.  The
release-store/acquire-load pair on `await_complete` makes the pair of
accesses race-free, so a sequentially consistent interleaving semantics is
the faithful model: the acquire load that observes the flag also observes the
slot write ordered before the release store. -/
def traceAt (r : R) (sched : Nat → Bool) : Nat → WriterPC × SpinState R
  | 0 => spinInit R
  | k + 1 =>
    if sched k then callbackStep r (traceAt r sched k) else traceAt r sched k

/-- The polling loop `while(!await_complete.load(acquire)) yield();` followed
by `return await_result`, observing the shared state `obs i` at its `i`-th
poll: at instant `k` it returns the slot if the flag is set, and otherwise
yields and polls again at instant `k + 1`.  `fuel` bounds the number of
yields so the loop is a total function; the theorems quantify over it. -/
def spinPoll (obs : Nat → SpinState R) : Nat → Nat → Option R
  | 0, k =>
    if (obs k).await_complete then (obs k).await_result else none
  | fuel + 1, k =>
    if (obs k).await_complete then (obs k).await_result
    else spinPoll obs fuel (k + 1)

/-! ## Results and the `check` contract -/

/-- A concrete machine-state snapshot (`CpuState`: register file plus
memory).  Its internals are external to this core; it is modelled as an
opaque token. -/
structure CpuState where
  snapshot : Nat
deriving DecidableEq, Repr

/-- `ObligationChecker::Result`: the verified / has-counterexample /
has-error flags, the error message, and the four machine-state snapshots of
a counterexample. -/
structure Result where
  verified : Bool
  has_ceg : Bool
  has_error : Bool
  error_message : String
  target_ceg : CpuState
  rewrite_ceg : CpuState
  target_final_ceg : CpuState
  rewrite_final_ceg : CpuState
deriving DecidableEq, Repr

/-- Modelled from the spec: `ObligationChecker::check` is pure virtual in
this header, so the outcome an implementation determines is modelled from the
spec's taxonomy — Verified, Disproved (carrying the four concrete snapshots
of the counterexample), or Internal error (carrying a non-empty message). -/
inductive Outcome where
  | verifiedOut
  | ceg (target rewrite target_final rewrite_final : CpuState)
  | internalError (msg : String) (nonempty : msg ≠ "")

/-- Modelled from the spec: the `Result` an implementation of `check` hands
to the callback once its outcome is determined — exactly one flag set,
snapshots populated for a counterexample, message set for an internal
error. -/
def deliverResult : Outcome → Result
  | Outcome.verifiedOut =>
    { verified := true, has_ceg := false, has_error := false
      error_message := ""
      target_ceg := { snapshot := 0 }, rewrite_ceg := { snapshot := 0 }
      target_final_ceg := { snapshot := 0 }
      rewrite_final_ceg := { snapshot := 0 } }
  | Outcome.ceg t r tf rf =>
    { verified := false, has_ceg := true, has_error := false
      error_message := ""
      target_ceg := t, rewrite_ceg := r
      target_final_ceg := tf, rewrite_final_ceg := rf }
  | Outcome.internalError msg _ =>
    { verified := false, has_ceg := false, has_error := true
      error_message := msg
      target_ceg := { snapshot := 0 }, rewrite_ceg := { snapshot := 0 }
      target_final_ceg := { snapshot := 0 }
      rewrite_final_ceg := { snapshot := 0 } }

/-- The observable events of one `check` invocation: the outcome becomes
fully determined, the callback is invoked, `check` returns to its caller. -/
inductive CheckEvent where
  | determined
  | callbackInvoked
  | returned
deriving DecidableEq, Repr

/-- The three execution shapes the documentation of `check` allows: (1)
block, call the callback, then return; (2) start an asynchronous job (which
will later invoke the callback) and return; (3) block, then start an
asynchronous job (which will call the callback) and return. -/
inductive CheckMode where
  | inline
  | async
  | hybrid
deriving DecidableEq, Repr

/-- Modelled from the spec: the events of the calling thread in each
execution shape.  Inline, the caller determines the outcome, invokes the
callback and returns; otherwise the caller only returns. -/
def callerThread : CheckMode → List CheckEvent
  | CheckMode.inline =>
    [CheckEvent.determined, CheckEvent.callbackInvoked, CheckEvent.returned]
  | CheckMode.async => [CheckEvent.returned]
  | CheckMode.hybrid => [CheckEvent.returned]

/-- Modelled from the spec: the events of the background job in each
execution shape.  When a job exists, it determines the outcome and then
invokes the callback. -/
def jobThread : CheckMode → List CheckEvent
  | CheckMode.inline => []
  | CheckMode.async => [CheckEvent.determined, CheckEvent.callbackInvoked]
  | CheckMode.hybrid => [CheckEvent.determined, CheckEvent.callbackInvoked]

/-- `Interleaving xs ys zs`: `zs` is an arbitrary interleaving of the two
per-thread event sequences `xs` and `ys`, preserving each thread's order. -/
inductive Interleaving : List α → List α → List α → Prop where
  | nil : Interleaving [] [] []
  | left (x : α) {xs ys zs : List α} :
      Interleaving xs ys zs → Interleaving (x :: xs) ys (x :: zs)
  | right (y : α) {xs ys zs : List α} :
      Interleaving xs ys zs → Interleaving xs (y :: ys) (y :: zs)

/-- Count the occurrences of one event in a trace. -/
def countEvent (e : CheckEvent) : List CheckEvent → Nat
  | [] => 0
  | x :: l => (if x = e then 1 else 0) + countEvent e l

/-! ## Alias strategies

The four strategies are declared `SOUND` in the header's comments; their
implementations are not part of this slice, so the base checkers are
abstract functions and soundness of each is the contract they carry. -/

/-- Modelled from the spec: a checker for queries `Q` is sound, with respect
to a ground-truth equivalence `equiv`, when a delivered `verified = true`
result is never wrong. -/
def SoundChecker (Q : Type) (equiv : Q → Prop) (c : Q → Result) : Prop :=
  ∀ q, (c q).verified = true → equiv q

/-- Modelled from the spec: `ARMS_RACE` runs the ARM and FLAT checkers
concurrently and accepts whichever responds first; `pick q = true` means the
ARM run wins the race on query `q`. -/
def armsRaceChecker (arm flat : Q → Result) (pick : Q → Bool) (q : Q) :
    Result :=
  if pick q then arm q else flat q

/-- Dispatch on the configured `AliasStrategy`: each strategy value selects
its checker, `ARMS_RACE` racing ARM against FLAT. -/
def dispatchChecker (basic flat arm : Q → Result) (pick : Q → Bool) :
    AliasStrategy → Q → Result
  | AliasStrategy.BASIC => basic
  | AliasStrategy.FLAT => flat
  | AliasStrategy.ARM => arm
  | AliasStrategy.ARMS_RACE => armsRaceChecker arm flat pick

/-! ## Sequences of memory operations -/

/-- One recorded operation on an `ArmMemory`: a call to `write` or to
`read`. -/
inductive MemOp where
  | writeOp (address value : SymBitVector) (size : Nat) (line : Nat)
  | readOp (address : SymBitVector) (size : Nat) (line : Nat)
deriving DecidableEq, Repr

/-- Apply one operation to the memory state, discarding the returned
value/fault pair. -/
def applyOp (m : ArmMemory) : MemOp → ArmMemory
  | MemOp.writeOp a v sz line => (m.write a v sz line).2
  | MemOp.readOp a sz line => (m.read a sz line).2

/-- Run a sequence of operations. -/
def runOps (m : ArmMemory) : List MemOp → ArmMemory
  | [] => m
  | op :: ops => runOps (applyOp m op) ops

/-! ## Lemmas about the spin loop -/

/-- Invariant coupling the callback's program counter with the shared state:
before the callback runs the flag is clear; between its two steps the slot
already holds the result and the flag is still clear; afterwards the slot
holds the result. -/
def writerInv (r : R) : WriterPC × SpinState R → Prop
  | (WriterPC.entry, s) => s.await_complete = false
  | (WriterPC.stored, s) => s.await_result = some r ∧ s.await_complete = false
  | (WriterPC.done, s) => s.await_result = some r

lemma callbackStep_inv (r : R) (p : WriterPC × SpinState R)
    (h : writerInv r p) : writerInv r (callbackStep r p) := by
  obtain ⟨pc, s⟩ := p
  cases pc with
  | entry => exact ⟨rfl, h⟩
  | stored => exact h.1
  | done => exact h

lemma traceAt_inv (r : R) (sched : Nat → Bool) (k : Nat) :
    writerInv r (traceAt r sched k) := by
  induction k with
  | zero => rfl
  | succ k ih =>
    cases hs : sched k with
    | true => simpa [traceAt, hs] using callbackStep_inv r _ ih
    | false => simpa [traceAt, hs] using ih

/-- Once the completion flag is observed set, the result slot holds the
callback's result. -/
lemma flag_gives_result (r : R) (sched : Nat → Bool) (k : Nat)
    (h : (traceAt r sched k).2.await_complete = true) :
    (traceAt r sched k).2.await_result = some r := by
  have hinv := traceAt_inv r sched k
  rcases htr : traceAt r sched k with ⟨pc, s⟩
  rw [htr] at hinv h
  cases pc with
  | entry => simp only [writerInv] at hinv; rw [hinv] at h; cases h
  | stored => simp only [writerInv] at hinv; rw [hinv.2] at h; cases h
  | done => exact hinv

/-! ## Lemmas about interleavings -/

lemma interleaving_count (e : CheckEvent) {xs ys zs : List CheckEvent}
    (h : Interleaving xs ys zs) :
    countEvent e zs = countEvent e xs + countEvent e ys := by
  induction h with
  | nil => rfl
  | left x _ ih => simp [countEvent, ih, Nat.add_assoc]
  | right y _ ih => simp [countEvent, ih]; ring

lemma interleaving_sublist_left {xs ys zs : List α}
    (h : Interleaving xs ys zs) : xs.Sublist zs := by
  induction h with
  | nil => exact List.Sublist.slnil
  | left x _ ih => exact List.Sublist.cons₂ x ih
  | right y _ ih => exact List.Sublist.cons y ih

lemma interleaving_sublist_right {xs ys zs : List α}
    (h : Interleaving xs ys zs) : ys.Sublist zs := by
  induction h with
  | nil => exact List.Sublist.slnil
  | left x _ ih => exact List.Sublist.cons x ih
  | right y _ ih => exact List.Sublist.cons₂ y ih

/-! ## Lemmas about the access list -/

/-- Inserting a key bound in no entry of the list appends a new binding. -/
lemma mapInsert_fresh (l : List (SymBitVector × Nat)) (k : SymBitVector)
    (v : Nat) (h : ∀ p ∈ l, p.1 ≠ k) : mapInsert l k v = l ++ [(k, v)] := by
  induction l with
  | nil => rfl
  | cons hd tl ih =>
    obtain ⟨k2, v2⟩ := hd
    have hne : k2 ≠ k := h (k2, v2) (by simp)
    simp only [mapInsert, if_neg hne, List.cons_append, List.cons.injEq,
      true_and]
    exact ih (fun p hp => h p (by simp [hp]))

/-- The access-list invariant maintained by `write` and `read`: one entry per
access, pairwise-distinct keys, every key a 64-bit temporary allocated below
the current counter. -/
def alistInv (al : List (SymBitVector × Nat)) (acs : List MemAccess)
    (nt : Nat) : Prop :=
  al.length = acs.length ∧ (al.map Prod.fst).Nodup ∧
  ∀ p ∈ al, ∃ id, p.1 = SymBitVector.tmpVar 64 id ∧ id < nt

lemma alistInv_push (al : List (SymBitVector × Nat)) (acs : List MemAccess)
    (nt : Nat) (h : alistInv al acs nt) (sz : Nat) (acc : MemAccess)
    (d : Nat) (hd : 0 < d) :
    alistInv (mapInsert al (SymBitVector.tmpVar 64 nt) sz) (acs ++ [acc])
      (nt + d) := by
  obtain ⟨hlen, hnodup, hbound⟩ := h
  have hfresh : ∀ p ∈ al, p.1 ≠ SymBitVector.tmpVar 64 nt := by
    intro p hp hpk
    obtain ⟨id, hid, hlt⟩ := hbound p hp
    rw [hid] at hpk
    injection hpk with h1 h2
    omega
  rw [mapInsert_fresh al _ sz hfresh]
  refine ⟨by simp [hlen], ?_, ?_⟩
  · rw [List.map_append, List.nodup_append]
    refine ⟨hnodup, by simp, ?_⟩
    intro x hx hx2
    simp only [List.map_cons, List.map_nil, List.mem_singleton] at hx2
    obtain ⟨p, hp, hpx⟩ := List.mem_map.mp hx
    exact hfresh p hp (by rw [hpx, hx2])
  · intro p hp
    rcases List.mem_append.mp hp with hpl | hpr
    · obtain ⟨id, hid, hlt⟩ := hbound p hpl
      exact ⟨id, hid, by omega⟩
    · simp only [List.mem_singleton] at hpr
      exact ⟨nt, by rw [hpr], by omega⟩

lemma alistInv_applyOp (m : ArmMemory) (op : MemOp)
    (h : alistInv m.access_list_ m.accesses_ m.next_tmp) :
    alistInv (applyOp m op).access_list_ (applyOp m op).accesses_
      (applyOp m op).next_tmp := by
  cases op with
  | writeOp a v sz line =>
    exact alistInv_push m.access_list_ m.accesses_ m.next_tmp h sz _ 1
      (by omega)
  | readOp a sz line =>
    exact alistInv_push m.access_list_ m.accesses_ m.next_tmp h sz _ 2
      (by omega)

lemma alistInv_runOps (m : ArmMemory) (ops : List MemOp)
    (h : alistInv m.access_list_ m.accesses_ m.next_tmp) :
    alistInv (runOps m ops).access_list_ (runOps m ops).accesses_
      (runOps m ops).next_tmp := by
  induction ops generalizing m with
  | nil => exact h
  | cons op ops ih => exact ih (applyOp m op) (alistInv_applyOp m op h)

/-- `read` and `write` leave the `finalize_` flag unchanged. -/
lemma runOps_finalize (m : ArmMemory) (ops : List MemOp) :
    (runOps m ops).finalize_ = m.finalize_ := by
  induction ops generalizing m with
  | nil => rfl
  | cons op ops ih =>
    rw [runOps, ih (applyOp m op)]
    cases op <;> rfl

/-! ## Claim theorems -/

/-- C1: whenever the callback is eventually invoked with result `r` — under
an arbitrary schedule of the callback's two steps relative to the polling
instants, including completion before `check_wait` begins polling (the flag
already set at instant `k`) — the spin loop of `check_wait`, which polls the
acquire-loaded completion flag (yielding between polls) and then returns the
stored result, returns exactly `r`: the flag is release-stored only after the
result slot is written, so an observation of the set flag guarantees the slot
holds `r` bit-identically. -/
theorem check_wait_bit_identical {R : Type} (r : R) (sched : Nat → Bool)
    (fuel k n : Nat) (hn : n ≤ fuel)
    (hflag : (traceAt r sched (k + n)).2.await_complete = true) :
    spinPoll (fun i => (traceAt r sched i).2) fuel k = some r := by
  induction n generalizing fuel k with
  | zero =>
    have hf : (traceAt r sched k).2.await_complete = true := by
      simpa using hflag
    have hres := flag_gives_result r sched k hf
    cases fuel with
    | zero => simp [spinPoll, hf, hres]
    | succ f => simp [spinPoll, hf, hres]
  | succ n ih =>
    cases hk : (traceAt r sched k).2.await_complete with
    | true =>
      have hres := flag_gives_result r sched k hk
      cases fuel with
      | zero => simp [spinPoll, hk, hres]
      | succ f => simp [spinPoll, hk, hres]
    | false =>
      cases fuel with
      | zero => exact absurd hn (by omega)
      | succ f =>
        have hn2 : n ≤ f := by omega
        have hflag2 : (traceAt r sched (k + 1 + n)).2.await_complete =
            true := by
          have harith : k + 1 + n = k + (n + 1) := by omega
          rw [harith]
          exact hflag
        have hrec := ih f (k + 1) hn2 hflag2
        simpa [spinPoll, hk] using hrec

/-- C1 witness: with the callback scheduled one step per instant, the flag is
set at instant 2, and a `check_wait` spin starting at instant 0 with fuel 2
returns exactly the result 42 handed to the callback. -/
theorem check_wait_bit_identical_witness :
    2 ≤ 2 ∧
    (traceAt 42 (fun _ => true) (0 + 2)).2.await_complete = true ∧
    spinPoll (fun i => (traceAt 42 (fun _ => true) i).2) 2 0 = some 42 :=
  ⟨by decide, by decide,
   check_wait_bit_identical 42 (fun _ => true) 2 0 2 (by decide) (by decide)⟩

/-- C2: `ArmMemory::write(address, value, size, line_no)` allocates exactly
one fresh placeholder (the temporary counter advances by one), appends
exactly one constraint equating that placeholder to `address`, records the
placeholder's size in the access list, appends exactly one write-tagged
access record carrying the given address, value and size, and returns the
constant-false fault condition; nothing else in the state changes. -/
theorem write_characterization (m : ArmMemory) (a v : SymBitVector)
    (sz line_no : Nat) :
    m.write a v sz line_no =
      (SymBool.sfalse,
       { m with
         next_tmp := m.next_tmp + 1
         constraints_ := m.constraints_ ++
           [SymBool.eq (SymBitVector.tmpVar 64 m.next_tmp) a]
         access_list_ := mapInsert m.access_list_
           (SymBitVector.tmpVar 64 m.next_tmp) sz
         accesses_ := m.accesses_ ++
           [{ address := a, value := v, size := sz, write := true
              cell := 0, cell_offset := 0, is_other := false, index := 0 }] }) :=
  rfl

/-- C3: `ArmMemory::read(address, size, line_no)` returns a fresh placeholder
bitvector of width `size` as the value together with the constant-false fault
condition, appends exactly one read-tagged access record (write flag false),
and the only constraint added equates the fresh 64-bit address placeholder to
`address` — the returned value placeholder appears in no added constraint, so
it is left unconstrained. -/
theorem read_characterization (m : ArmMemory) (a : SymBitVector)
    (sz line_no : Nat) :
    m.read a sz line_no =
      ((SymBitVector.tmpVar sz (m.next_tmp + 1), SymBool.sfalse),
       { m with
         next_tmp := m.next_tmp + 2
         constraints_ := m.constraints_ ++
           [SymBool.eq (SymBitVector.tmpVar 64 m.next_tmp) a]
         access_list_ := mapInsert m.access_list_
           (SymBitVector.tmpVar 64 m.next_tmp) sz
         accesses_ := m.accesses_ ++
           [{ address := a, value := SymBitVector.tmpVar sz (m.next_tmp + 1)
              size := sz, write := false
              cell := 0, cell_offset := 0, is_other := false, index := 0 }] }) :=
  rfl

/-- C4: before `finalize_heap()` — that is, on a freshly constructed
`ArmMemory` and after any sequence of reads and writes, none of which touch
the flag — `get_variable()` returns the start-of-execution heap variable;
after `finalize_heap()` it returns the end-of-execution heap variable; and
`equality_constraint(other)` equates the two models' currently selected
timeline variables, so between two finalized models it equates the two
end-of-execution heaps. -/
theorem timeline_selection (m other : ArmMemory) (c : Nat)
    (ops : List MemOp) :
    (runOps (armMemoryInit c) ops).get_variable =
      (runOps (armMemoryInit c) ops).get_start_variable ∧
    m.finalize_heap.get_variable = m.get_end_variable ∧
    m.equality_constraint other =
      SymBool.eqArray m.get_variable other.get_variable ∧
    m.finalize_heap.equality_constraint other.finalize_heap =
      SymBool.eqArray m.final_heap_ other.final_heap_ := by
  refine ⟨?_, rfl, rfl, rfl⟩
  have hfin : (runOps (armMemoryInit c) ops).finalize_ = false :=
    runOps_finalize (armMemoryInit c) ops
  simp [ArmMemory.get_variable, hfin]

/-- C5: every `Result` delivered to a callback satisfies exactly one of the
three outcome shapes — verified, counterexample with the four machine-state
snapshots populated, or internal error with a non-empty message — and the
three are mutually exclusive. -/
theorem result_exactly_one (o : Outcome) :
    (((deliverResult o).verified && !(deliverResult o).has_ceg &&
        !(deliverResult o).has_error) ||
     (!(deliverResult o).verified && (deliverResult o).has_ceg &&
        !(deliverResult o).has_error) ||
     (!(deliverResult o).verified && !(deliverResult o).has_ceg &&
        (deliverResult o).has_error)) = true ∧
    ((deliverResult o).has_error = false ∨
      (deliverResult o).error_message ≠ "") ∧
    (∀ t r tf rf : CpuState,
      (deliverResult (Outcome.ceg t r tf rf)).target_ceg = t ∧
      (deliverResult (Outcome.ceg t r tf rf)).rewrite_ceg = r ∧
      (deliverResult (Outcome.ceg t r tf rf)).target_final_ceg = tf ∧
      (deliverResult (Outcome.ceg t r tf rf)).rewrite_final_ceg = rf) := by
  refine ⟨?_, ?_, fun t r tf rf => ⟨rfl, rfl, rfl, rfl⟩⟩
  · cases o <;> rfl
  · cases o with
    | verifiedOut => exact Or.inl rfl
    | ceg t r tf rf => exact Or.inl rfl
    | internalError msg h => exact Or.inr h

/-- C6: in every interleaved execution of `check` — inline completion on the
calling thread, asynchronous completion from a background job, or the hybrid
shape — the callback is invoked exactly once, and only strictly after the
check's outcome has been fully determined (the two-element sequence
"determined, then callback" embeds in order in the trace). -/
theorem callback_once_after_determined (mode : CheckMode)
    (tr : List CheckEvent)
    (h : Interleaving (callerThread mode) (jobThread mode) tr) :
    countEvent CheckEvent.callbackInvoked tr = 1 ∧
    List.Sublist [CheckEvent.determined, CheckEvent.callbackInvoked] tr := by
  have hc := interleaving_count CheckEvent.callbackInvoked h
  cases mode with
  | inline =>
    refine ⟨by rw [hc]; decide, ?_⟩
    have hsub := interleaving_sublist_left h
    exact List.Sublist.trans
      (List.Sublist.cons₂ _ (List.Sublist.cons₂ _
        (List.Sublist.cons _ List.Sublist.slnil))) hsub
  | async =>
    refine ⟨by rw [hc]; decide, ?_⟩
    exact interleaving_sublist_right h
  | hybrid =>
    refine ⟨by rw [hc]; decide, ?_⟩
    exact interleaving_sublist_right h

/-- C6 witness: the inline execution shape, interleaved with an empty job
thread, yields the trace determined–callback–returned: one callback
invocation, strictly after the outcome is determined. -/
theorem callback_once_after_determined_witness :
    Interleaving (callerThread CheckMode.inline) (jobThread CheckMode.inline)
      [CheckEvent.determined, CheckEvent.callbackInvoked,
       CheckEvent.returned] ∧
    (countEvent CheckEvent.callbackInvoked
       [CheckEvent.determined, CheckEvent.callbackInvoked,
        CheckEvent.returned] = 1 ∧
     List.Sublist [CheckEvent.determined, CheckEvent.callbackInvoked]
       [CheckEvent.determined, CheckEvent.callbackInvoked,
        CheckEvent.returned]) :=
  ⟨Interleaving.left _ (Interleaving.left _ (Interleaving.left _
      Interleaving.nil)),
   callback_once_after_determined CheckMode.inline _
     (Interleaving.left _ (Interleaving.left _ (Interleaving.left _
        Interleaving.nil)))⟩

/-- C7: under each of the four alias strategies, if the dispatched checker
delivers `verified = true` then target and rewrite really are equivalent —
given that the three base checkers honor the soundness contract the header
declares for them (`SOUND`), dispatch preserves soundness for all four
strategy values; in particular the ARM-versus-FLAT race is sound whichever
side wins. -/
theorem strategies_sound (Q : Type) (equiv : Q → Prop)
    (basic flat arm : Q → Result) (pick : Q → Bool)
    (hbasic : SoundChecker Q equiv basic)
    (hflat : SoundChecker Q equiv flat)
    (harm : SoundChecker Q equiv arm) (s : AliasStrategy) :
    SoundChecker Q equiv (dispatchChecker basic flat arm pick s) := by
  cases s with
  | BASIC => exact hbasic
  | FLAT => exact hflat
  | ARM => exact harm
  | ARMS_RACE =>
    intro q hq
    cases hp : pick q with
    | true =>
      exact harm q
        (by simpa [dispatchChecker, armsRaceChecker, hp] using hq)
    | false =>
      exact hflat q
        (by simpa [dispatchChecker, armsRaceChecker, hp] using hq)

/-- A concrete `Result` with the verified flag set, used to instantiate the
soundness theorem. -/
def verifiedResult : Result :=
  { verified := true, has_ceg := false, has_error := false
    error_message := ""
    target_ceg := { snapshot := 0 }, rewrite_ceg := { snapshot := 0 }
    target_final_ceg := { snapshot := 0 }
    rewrite_final_ceg := { snapshot := 0 } }

/-- C7 witness: with trivially sound base checkers, the dispatched
`ARMS_RACE` checker is sound. -/
theorem strategies_sound_witness :
    SoundChecker Nat (fun _ => True) (fun _ => verifiedResult) ∧
    SoundChecker Nat (fun _ => True)
      (dispatchChecker (fun _ => verifiedResult) (fun _ => verifiedResult)
        (fun _ => verifiedResult) (fun _ => true) AliasStrategy.ARMS_RACE) :=
  ⟨fun _ _ => trivial,
   strategies_sound Nat (fun _ => True) (fun _ => verifiedResult)
     (fun _ => verifiedResult) (fun _ => verifiedResult) (fun _ => true)
     (fun _ _ => trivial) (fun _ _ => trivial) (fun _ _ => trivial)
     AliasStrategy.ARMS_RACE⟩

/-- Two writes through the same symbolic address variable, used to exhibit
the keying of the access list. -/
def doubleWriteMem : ArmMemory :=
  (((armMemoryInit 0).write (SymBitVector.var 64 0) (SymBitVector.var 64 1)
      8 1).2.write (SymBitVector.var 64 0) (SymBitVector.var 64 2) 8 2).2

/-- C8 counterexample: after two writes performed with the *same* symbolic
address variable, `get_access_list()` holds two entries, not the single entry
the claim predicts — the map is keyed by the fresh placeholder allocated per
access (`access_var.ptr`), not by the address variable. -/
theorem access_list_not_per_address :
    doubleWriteMem.accesses_.map MemAccess.address =
      [SymBitVector.var 64 0, SymBitVector.var 64 0] ∧
    doubleWriteMem.get_access_list.length = 2 ∧
    ¬ doubleWriteMem.get_access_list.length = 1 := by decide

/-- C8 amended: after any sequence of reads and writes on a freshly
constructed `ArmMemory`, `get_access_list()` contains exactly one entry per
access performed (its length equals the length of the access log), with
pairwise-distinct keys — each entry is keyed by the fresh placeholder
variable allocated for that access and maps it to that access's size; two
accesses through the same symbolic address variable therefore contribute two
entries, one per placeholder. -/
theorem access_list_entry_per_access (c : Nat) (ops : List MemOp) :
    (runOps (armMemoryInit c) ops).get_access_list.length =
      (runOps (armMemoryInit c) ops).accesses_.length ∧
    ((runOps (armMemoryInit c) ops).get_access_list.map Prod.fst).Nodup := by
  have h := alistInv_runOps (armMemoryInit c) ops
    ⟨rfl, List.nodup_nil, fun p hp => absurd hp (List.not_mem_nil p)⟩
  exact ⟨h.1, h.2.1⟩

/-- C9 counterexample: two `write` calls that differ only in their `line_no`
argument produce bit-identical results and states — in particular identical
access records — so a recorded `MemAccess` cannot carry the source line/step:
the C++ struct has no such field and the argument is ignored. -/
theorem mem_access_no_line_field :
    (armMemoryInit 0).write (SymBitVector.var 64 0) (SymBitVector.var 64 1)
        8 5 =
      (armMemoryInit 0).write (SymBitVector.var 64 0) (SymBitVector.var 64 1)
        8 7 ∧
    ((armMemoryInit 0).write (SymBitVector.var 64 0) (SymBitVector.var 64 1)
        8 5).2.accesses_ =
      [{ address := SymBitVector.var 64 0, value := SymBitVector.var 64 1
         size := 8, write := true
         cell := 0, cell_offset := 0, is_other := false, index := 0 }] :=
  ⟨rfl, rfl⟩

/-- C9 amended: every recorded access record carries the symbolic address,
symbolic value, byte size and is-write flag of the access, together with the
cell-assignment fields to be filled during finalization — but not the
`line_no` argument, which both `read` and `write` ignore entirely. -/
theorem mem_access_fields (m : ArmMemory) (a v : SymBitVector)
    (sz l1 l2 : Nat) :
    (m.write a v sz l1).2.accesses_ =
      m.accesses_ ++
        [{ address := a, value := v, size := sz, write := true
           cell := 0, cell_offset := 0, is_other := false, index := 0 }] ∧
    m.write a v sz l1 = m.write a v sz l2 ∧
    m.read a sz l1 = m.read a sz l2 :=
  ⟨rfl, rfl, rfl⟩

/-- C10: the default constructor leaves the checker with alias strategy FLAT,
NaCl mode disabled, per-basic-block ghost variables enabled and fixpoint-up
disabled, whatever the fields held before its setter calls run; and the copy
constructor copies exactly the four configuration fields, so a copy is
configuration-equivalent to its original. -/
theorem default_and_copy_config (init oc : ObligationChecker) :
    obligationCheckerInit init =
      { alias_strategy_ := AliasStrategy.FLAT, basic_block_ghosts_ := true
        nacl_ := false, fixpoint_up_ := false } ∧
    obligationCheckerCopy oc = oc :=
  ⟨rfl, rfl⟩

end StokeSpec
